import Mathlib

/-!
# Verification of `arrow/compute/util.h`

A shallow embedding of the temporary-vector stack (`TempVectorStack`,
`TempVectorHolder`) and of the bitmap transforms (`bit_util`) declared in
`cpp/src/arrow/compute/util.h`, together with the properties proved about them.

Conventions of the embedding:

* `int64_t` values are integers in `[-2^63, 2^63)`; every arithmetic step of the
  source is followed by the reduction the machine performs (`toInt64`, `toUint64`,
  `toUint32`, `toUint16`).
* A byte is a natural number below 256, a buffer's contents a map from byte offset
  to byte, and a bitmap a list of bytes with bit 0 the least significant bit.
* An operation that aborts (a failed check) returns `none`.
-/

namespace arrow
namespace util

/-! ## Machine integers -/

/-- Largest value of `int64_t`. -/
def INT64_MAX : Int := 2 ^ 63 - 1

/-- Conversion of an integer to `int64_t` (two's complement). -/
def toInt64 (x : Int) : Int := (x + 2 ^ 63) % 2 ^ 64 - 2 ^ 63

/-- Conversion of an integer to `uint64_t` (also `size_t`). -/
def toUint64 (x : Int) : Int := x % 2 ^ 64

/-- Conversion of a natural number to `uint32_t`. -/
def toUint32 (x : Nat) : Nat := x % 2 ^ 32

/-- Conversion of a natural number to `uint16_t`. -/
def toUint16 (x : Nat) : Nat := x % 2 ^ 16

/-! ## Status and memory pool -/

/-- Codes of a failed `Status`. -/
inductive StatusCode where
  | OutOfMemory
  | Invalid
  | CapacityError
  | UnknownError
  deriving DecidableEq, Repr

/-- A failure: what a `Result<T>` holds when it holds no value. -/
structure Error where
  code : StatusCode
  msg : String
  deriving DecidableEq, Repr

/-- The `Status` returned by fallible operations. -/
inductive Status where
  | OK
  | error (e : Error)
  deriving DecidableEq, Repr

/-- A buffer owned through `std::unique_ptr<Buffer>`: its size in bytes and its
contents by byte offset. -/
structure Buffer where
  size : Int
  data : Int → Nat

/-- Modelled from the spec: the memory pool collaborator, `allocate(size) →
Result<OwnedBuffer>` (fallible). `fails size` is the failure the pool answers a
request of `size` bytes with, if any; `fresh` is the content of newly obtained,
uninitialised memory. -/
structure MemoryPool where
  fails : Int → Option Error
  fresh : Int → Nat

/-- Modelled from the spec: `AllocateResizableBuffer(size, pool)` of
`arrow/buffer.h`, which asks the pool for `size` bytes and returns either the
pool's failure or a buffer of that size. -/
def AllocateResizableBuffer (size : Int) (pool : MemoryPool) : Except Error Buffer :=
  match pool.fails size with
  | some e => Except.error e
  | none => Except.ok { size := size, data := pool.fresh }

/-- The call `std::memset(p, value, n)` on the start of a buffer. -/
def memset (b : Buffer) (value : Nat) (n : Int) : Buffer :=
  { b with data := fun i => if 0 ≤ i ∧ i < n then value else b.data i }

/-! ## MiniBatch -/

/-- The constant `MiniBatch::kLogMiniBatchLength`. -/
def kLogMiniBatchLength : Nat := 10

/-- The constant `MiniBatch::kMiniBatchLength`. -/
def kMiniBatchLength : Nat := 1 <<< kLogMiniBatchLength

/-! ## TempVectorStack -/

/-- Modelled from the spec: `::arrow::bit_util::RoundUp(value, factor)` of
`arrow/util/bit_util.h`, the least multiple of `factor` that is at least
`value` ("rounds to 8-byte alignment"). -/
def RoundUp (value factor : Int) : Int := (value + (factor - 1)) / factor * factor

/-- The constant `TempVectorStack::kGuard1`. -/
def kGuard1 : Nat := 0x3141592653589793

/-- The constant `TempVectorStack::kGuard2`. -/
def kGuard2 : Nat := 0x0577215664901532

/-- The constant `TempVectorStack::kPadding`. -/
def kPadding : Int := 64

/-- The fields of `TempVectorStack`. -/
structure TempVectorStack where
  num_vectors_ : Int
  top_ : Int
  buffer_ : Option Buffer
  buffer_size_ : Int

/-- The method `TempVectorStack::PaddedAllocationSize`:
`RoundUp(num_bytes, sizeof(int64_t)) + kPadding` in `int64_t`. -/
def PaddedAllocationSize (num_bytes : Int) : Int :=
  toInt64 (toInt64 (RoundUp num_bytes 8) + kPadding)

/-- The value `Init` stores in `buffer_size_`:
`PaddedAllocationSize(size) + kPadding + 2 * sizeof(uint64_t)`. The first sum is
an `int64_t`; adding the `size_t` operand is done in `uint64_t`, and the result
is converted back to `int64_t` by the assignment. -/
def InitBufferSize (size : Int) : Int :=
  toInt64 (toUint64 (toUint64 (toInt64 (PaddedAllocationSize size + kPadding)) + 2 * 8))

/-- The method `TempVectorStack::Init`. The result is the returned status and the
state of the object when the method returns. -/
def TempVectorStack.Init (self : TempVectorStack) (pool : MemoryPool) (size : Int) :
    Status × TempVectorStack :=
  let s1 := { self with num_vectors_ := 0 }
  let s2 := { s1 with top_ := 0 }
  let s3 := { s2 with buffer_size_ := InitBufferSize size }
  match AllocateResizableBuffer size pool with
  | Except.error e => (Status.error e, s3)
  | Except.ok buffer =>
    let buffer := memset buffer 0xFF (toUint64 size)
    (Status.OK, { s3 with buffer_ := some buffer })

/-- The arena invariant of the data model: `0 ≤ top ≤ buffer_size` and
`live_count ≥ 0`. -/
def TempVectorStack.Invariant (s : TempVectorStack) : Prop :=
  0 ≤ s.top_ ∧ s.top_ ≤ s.buffer_size_ ∧ 0 ≤ s.num_vectors_

/-- Little-endian store of the 64-bit word `value` at byte offset `off`. -/
def store64 (b : Buffer) (off : Int) (value : Nat) : Buffer :=
  { b with data := fun i =>
      if off ≤ i ∧ i < off + 8 then (value >>> (8 * (i - off).toNat)) % 256 else b.data i }

/-- Little-endian load of the 64-bit word at byte offset `off`. -/
def load64 (b : Buffer) (off : Int) : Nat :=
  (List.range 8).foldr (fun (k : Nat) (acc : Nat) => b.data (off + (k : Int)) % 256 + 256 * acc) 0

/-- Modelled from the spec: `TempVectorStack::alloc`, declared in `util.h` and
defined elsewhere. It "bumps `top` by `PaddedSize(num_bytes)`, writes the leading
guard word at the new region's start, increments `live_count`, and returns the
writable pointer positioned after the guard", and fails fatally "if the request
would exceed `buffer_size`". The result is the new state, the data pointer (as a
byte offset into the buffer) and the allocation id, which is the byte offset of
the region; `none` is the fatal failure. Whether the offsets written lie inside
the memory obtained from the pool is not part of this operation. -/
def TempVectorStack.alloc (self : TempVectorStack) (num_bytes : Nat) :
    Option (TempVectorStack × Int × Int) :=
  let new_top := self.top_ + PaddedAllocationSize num_bytes
  if new_top ≤ self.buffer_size_ then
    match self.buffer_ with
    | none => none
    | some b =>
      some ({ self with
                buffer_ := some (store64 b self.top_ kGuard1)
                num_vectors_ := self.num_vectors_ + 1
                top_ := new_top },
            self.top_ + 8, self.top_)
  else none

/-- Modelled from the spec: `TempVectorStack::release`, declared in `util.h` and
defined elsewhere. It "verifies the released region is the most recently
allocated one (LIFO check against `top`) and that its guard word is unmodified;
decrements `live_count`; moves `top` back"; a failed check is fatal (`none`). -/
def TempVectorStack.release (self : TempVectorStack) (id : Int) (num_bytes : Nat) :
    Option TempVectorStack :=
  let size := PaddedAllocationSize num_bytes
  match self.buffer_ with
  | none => none
  | some b =>
    if id + size = self.top_ ∧ load64 b id = kGuard1 then
      some { self with num_vectors_ := self.num_vectors_ - 1, top_ := self.top_ - size }
    else none

/-! ## TempVectorHolder -/

/-- The two private operations of the stack that a `TempVectorHolder` calls, over
a stack state `σ`: `alloc(num_bytes, &data, &id)` yields the new state, the data
pointer and the id; `release(id, num_bytes)` yields the new state. -/
structure StackOps (σ : Type) where
  alloc : σ → Nat → σ × Int × Int
  release : σ → Int → Nat → σ

/-- The fields of `TempVectorHolder<T>` other than `stack_`, which is passed
explicitly. -/
structure TempVectorHolder where
  data_ : Int
  id_ : Int
  num_elements_ : Nat
  deriving DecidableEq, Repr

/-- The argument `num_elements * sizeof(T)` of the calls made by a holder: a
`uint32_t` times a `size_t`, computed in `size_t` and converted to the
`uint32_t` parameter `num_bytes`. -/
def holderNumBytes (num_elements sizeofT : Nat) : Nat :=
  toUint32 ((num_elements * sizeofT) % 2 ^ 64)

/-- The constructor `TempVectorHolder(TempVectorStack* stack, uint32_t num_elements)`
for an element type of size `sizeofT`. -/
def TempVectorHolder.ctor {σ : Type} (ops : StackOps σ) (sizeofT : Nat) (stack : σ)
    (num_elements : Nat) : σ × TempVectorHolder :=
  let r := ops.alloc stack (holderNumBytes num_elements sizeofT)
  (r.1, { data_ := r.2.1, id_ := r.2.2, num_elements_ := num_elements })

/-- The destructor `~TempVectorHolder()` for an element type of size `sizeofT`. -/
def TempVectorHolder.dtor {σ : Type} (ops : StackOps σ) (sizeofT : Nat) (stack : σ)
    (h : TempVectorHolder) : σ :=
  ops.release stack h.id_ (holderNumBytes h.num_elements_ sizeofT)

/-- A call received by the stack. -/
inductive StackCall where
  | alloc (num_bytes : Nat)
  | release (id : Int) (num_bytes : Nat)
  deriving DecidableEq, Repr

/-- A stack that records, in order, every call it receives before passing it to
`ops`. -/
def recording {σ : Type} (ops : StackOps σ) : StackOps (List StackCall × σ) where
  alloc s n :=
    let r := ops.alloc s.2 n
    ((s.1 ++ [StackCall.alloc n], r.1), r.2)
  release s id n := (s.1 ++ [StackCall.release id n], ops.release s.2 id n)

/-- Bit `i` of a bitmap (0 or 1); bit 0 of a byte is its least significant bit. -/
def GetBit (bits : List Nat) (i : Nat) : Nat := (bits.getD (i / 8) 0 >>> (i % 8)) % 2

/-- Little-endian value of a sequence of bytes. -/
def loadLE : List Nat → Nat
  | [] => 0
  | b :: bs => b % 256 + 256 * loadLE bs

/-- The load of the 64-bit word number `i` of a bitmap. -/
def SafeLoadWord (bits : List Nat) (i : Nat) : Nat := loadLE ((bits.drop (8 * i)).take 8)

/-- Modelled from the spec: `bit_util::SafeLoadUpTo8Bytes`, declared in `util.h`
and defined elsewhere, the "safe partial-word load that never reads past
`bitmap`'s declared length": the little-endian value of the first `num_bytes`
bytes. -/
def SafeLoadUpTo8Bytes (bytes : List Nat) (num_bytes : Nat) : Nat :=
  loadLE (bytes.take num_bytes)

/-- Number of trailing zero bits of `word`, looking at `width` bits. -/
def countTrailingZerosAux : Nat → Nat → Nat
  | 0, _ => 0
  | width + 1, word =>
    if word % 2 = 1 then 0 else 1 + countTrailingZerosAux width (word / 2)

/-- Modelled from the spec: `CountTrailingZeros` of `arrow/util/bit_util.h` on a
64-bit word, which "finds the lowest set bit". -/
def CountTrailingZeros (word : Nat) : Nat := countTrailingZerosAux 64 word

/-- The loop of `bits_to_indexes_helper`, for at most `steps` rounds: while
`word` is not zero, store the position of its lowest set bit, offset by
`base_index`, at `indexes[n]`, and clear that bit. -/
def bits_to_indexes_helper_loop : Nat → Nat → Nat → Nat × List Nat → Nat × List Nat
  | 0, _, _, out => out
  | steps + 1, word, base_index, out =>
    if word = 0 then out
    else
      bits_to_indexes_helper_loop steps (word &&& (word - 1)) base_index
        (out.1 + 1, out.2 ++ [toUint16 (base_index + toUint16 (CountTrailingZeros word))])

/-- Modelled from the spec: `bit_util::bits_to_indexes_helper`, declared in
`util.h` and defined elsewhere, the "word-extraction routine that repeatedly
finds and clears the lowest set bit, converting each found bit position to an
absolute index". `out` is `*num_indexes` and the indexes written so far; a
64-bit word has at most 64 set bits, hence at most 64 rounds. -/
def bits_to_indexes_helper (word base_index : Nat) (out : Nat × List Nat) : Nat × List Nat :=
  bits_to_indexes_helper_loop 64 word base_index out

/-- The complement `~word` of a 64-bit word. -/
def not64 (word : Nat) : Nat := 2 ^ 64 - 1 - word

/-- Modelled from the spec: the scalar path of `bit_util::bits_to_indexes_internal`
(declared in `util.h`, defined elsewhere) without input indexes: "process 64 bits
at a time via a word-extraction routine (after optionally inverting the word when
`target_bit = 0`); tail bits (<64 remaining) are handled via a safe partial-word
load" and masked to the range. -/
def bits_to_indexes_scalar (bit_to_search num_bits : Nat) (bits : List Nat)
    (base_index : Nat) : Nat × List Nat :=
  let tail := num_bits % 64
  let full :=
    (List.range (num_bits / 64)).foldl
      (fun out i =>
        let word := SafeLoadWord bits i
        let word := if bit_to_search = 0 then not64 word else word
        bits_to_indexes_helper word (toUint16 (i * 64 + base_index)) out)
      (0, [])
  if tail ≠ 0 then
    let bits_tail := bits.drop ((num_bits - tail) / 8)
    let word := SafeLoadUpTo8Bytes bits_tail ((tail + 7) / 8)
    let word := if bit_to_search = 0 then not64 word else word
    let word := word &&& ((2 ^ 64 - 1) >>> (64 - tail))
    bits_to_indexes_helper word (toUint16 (num_bits - tail + base_index)) full
  else full

/-- Modelled from the spec: the accelerated path of `bits_to_indexes` (the AVX2
functions declared in `util.h`), of which the spec gives the semantics only: it
"emits, in ascending order, the positions (0-based, offset by `base_index`) of
bits equal to `target_bit`". -/
def bits_to_indexes_accelerated (bit_to_search num_bits : Nat) (bits : List Nat)
    (base_index : Nat) : Nat × List Nat :=
  (List.range num_bits).foldl
    (fun out i =>
      if GetBit bits i = bit_to_search then (out.1 + 1, out.2 ++ [toUint16 (base_index + i)])
      else out)
    (0, [])

/-- Modelled from the spec: `bit_util::bits_to_indexes` (declared in `util.h`,
defined elsewhere) with the default `bit_offset = 0`. The result is
`*num_indexes` and the indexes written. `hardware_flags` is opaque: `accelerated`
is the capability test that selects the accelerated path, and the scalar path is
taken "when the hardware token lacks the required capability". Any non-zero
`bit_to_search` searches for bit 1. -/
def bits_to_indexes (accelerated : Int → Bool) (bit_to_search : Nat) (hardware_flags : Int)
    (num_bits : Nat) (bits : List Nat) : Nat × List Nat :=
  let bit := if bit_to_search = 0 then 0 else 1
  if accelerated hardware_flags then bits_to_indexes_accelerated bit num_bits bits 0
  else bits_to_indexes_scalar bit num_bits bits 0

/-- Modelled from the spec: `bit_util::bits_to_bytes` (declared in `util.h`,
defined elsewhere) with the default `bit_offset = 0`: it "expands each bit to a
full byte, `1 → 0xFF`, `0 → 0x00`". The result is the `num_bits` bytes written. -/
def bits_to_bytes (hardware_flags : Int) (num_bits : Nat) (bits : List Nat) : List Nat :=
  (List.range num_bits).map (fun i => if GetBit bits i = 1 then 0xFF else 0x00)

/-- The byte that packs the highest bit of each of up to eight bytes, the first
byte giving bit 0. -/
def packHighBits : List Nat → Nat
  | [] => 0
  | b :: bs => (b % 256) >>> 7 + 2 * packHighBits bs

/-- Modelled from the spec: `bit_util::bytes_to_bits` (declared in `util.h`,
defined elsewhere) with the default `bit_offset = 0`: it "takes the high bit of
each input byte (not equality to 0xFF) and packs it". The result is the
`⌈num_bits / 8⌉` bitmap bytes written. -/
def bytes_to_bits (hardware_flags : Int) (num_bits : Nat) (bytes : List Nat) : List Nat :=
  (List.range ((num_bits + 7) / 8)).map
    (fun k => packHighBits (((bytes.take num_bits).drop (8 * k)).take 8))

/-! ## Concrete inputs -/

/-- A stack object before any call of `Init`. -/
def emptyStack : TempVectorStack :=
  { num_vectors_ := 0, top_ := 0, buffer_ := none, buffer_size_ := 0 }

/-- A stack object that has been used: three live vectors and a buffer. -/
def usedStack : TempVectorStack :=
  { num_vectors_ := 3, top_ := 264, buffer_ := some { size := 512, data := fun _ => 7 },
    buffer_size_ := 656 }

/-- A pool that satisfies every request, with zeroed memory. -/
def generousPool : MemoryPool := { fails := fun _ => none, fresh := fun _ => 0 }

/-- A pool that fails every request as out of memory. -/
def exhaustedPool : MemoryPool :=
  { fails := fun _ => some { code := StatusCode.OutOfMemory, msg := "malloc failed" },
    fresh := fun _ => 0 }

/-- Stack operations that answer every allocation with data pointer 8 and id 5
and keep no state. -/
def constantOps : StackOps Unit :=
  { alloc := fun _ _ => ((), 8, 5), release := fun _ _ _ => () }

/-! # Theorems -/

/-! ## Machine-integer lemmas -/

theorem toInt64_of_range (x : Int) (h1 : -(2 ^ 63) ≤ x) (h2 : x < 2 ^ 63) : toInt64 x = x := by
  unfold toInt64
  omega

theorem toUint64_of_range (x : Int) (h1 : 0 ≤ x) (h2 : x < 2 ^ 64) : toUint64 x = x := by
  unfold toUint64
  omega

theorem RoundUp_eight_bounds (n : Int) :
    (8 : Int) ∣ RoundUp n 8 ∧ n ≤ RoundUp n 8 ∧ RoundUp n 8 < n + 8 := by
  unfold RoundUp
  refine ⟨Dvd.intro_left _ rfl, ?_, ?_⟩ <;> omega

theorem PaddedAllocationSize_eq (n : Int) (h0 : 0 ≤ n) (hmax : n ≤ INT64_MAX - 71) :
    PaddedAllocationSize n = RoundUp n 8 + 64 := by
  obtain ⟨_, h2, h3⟩ := RoundUp_eight_bounds n
  unfold INT64_MAX at hmax
  unfold PaddedAllocationSize kPadding
  rw [toInt64_of_range (RoundUp n 8) (by omega) (by omega)]
  rw [toInt64_of_range _ (by omega) (by omega)]

theorem InitBufferSize_eq (size : Int) (h0 : 0 ≤ size) (hmax : size ≤ INT64_MAX - 151) :
    InitBufferSize size = RoundUp size 8 + 144 := by
  obtain ⟨_, h2, h3⟩ := RoundUp_eight_bounds size
  have hp := PaddedAllocationSize_eq size h0 (by omega)
  unfold INT64_MAX at hmax
  unfold InitBufferSize kPadding
  rw [hp]
  have e1 : toInt64 (RoundUp size 8 + 64 + 64) = RoundUp size 8 + 128 := by
    rw [toInt64_of_range _ (by omega) (by omega)]; omega
  have e2 : toUint64 (RoundUp size 8 + 128) = RoundUp size 8 + 128 :=
    toUint64_of_range _ (by omega) (by omega)
  have e3 : toUint64 (RoundUp size 8 + 128 + 2 * 8) = RoundUp size 8 + 144 := by
    rw [toUint64_of_range _ (by omega) (by omega)]; omega
  rw [e1, e2, e3]
  exact toInt64_of_range _ (by omega) (by omega)

/-! ## TempVectorStack: sizes -/

/-- C1: for a byte count `n ≥ 0` (small enough for the `int64_t` sums not to
overflow), `PaddedAllocationSize n` is `RoundUp n 8 + kPadding` with
`kPadding = 64`, where `RoundUp n 8` is the least multiple of 8 that is at least
`n`; so the result is a multiple of 8 and `n + 64 ≤ PaddedAllocationSize n < n + 72`. -/
theorem PaddedAllocationSize_spec (n : Int) (h0 : 0 ≤ n) (hmax : n ≤ INT64_MAX - 71) :
    PaddedAllocationSize n = RoundUp n 8 + kPadding ∧ kPadding = 64 ∧
    ((8 : Int) ∣ RoundUp n 8 ∧ n ≤ RoundUp n 8 ∧
      ∀ m : Int, (8 : Int) ∣ m → n ≤ m → RoundUp n 8 ≤ m) ∧
    (8 : Int) ∣ PaddedAllocationSize n ∧
    n + 64 ≤ PaddedAllocationSize n ∧ PaddedAllocationSize n < n + 72 := by
  obtain ⟨h1, h2, h3⟩ := RoundUp_eight_bounds n
  have hp := PaddedAllocationSize_eq n h0 hmax
  refine ⟨by rw [hp]; rfl, rfl, ⟨h1, h2, ?_⟩, ?_, ?_, ?_⟩
  · intro m hm hnm
    omega
  · rw [hp]; omega
  · rw [hp]; omega
  · rw [hp]; omega

theorem PaddedAllocationSize_spec_witness :
    PaddedAllocationSize 13 = RoundUp 13 8 + kPadding ∧ kPadding = 64 ∧
    ((8 : Int) ∣ RoundUp 13 8 ∧ (13 : Int) ≤ RoundUp 13 8 ∧
      ∀ m : Int, (8 : Int) ∣ m → 13 ≤ m → RoundUp 13 8 ≤ m) ∧
    (8 : Int) ∣ PaddedAllocationSize 13 ∧
    (13 : Int) + 64 ≤ PaddedAllocationSize 13 ∧ PaddedAllocationSize 13 < 13 + 72 :=
  PaddedAllocationSize_spec 13 (by norm_num) (by norm_num [INT64_MAX])

/-! ## TempVectorStack: Init -/

/-- C2 (as the claim states it, refuted): for `size = 0` the capacity recorded by
`Init` is 144, not `RoundUp 0 8 + 64 + 16 = 80`. -/
theorem Init_buffer_size_counterexample :
    (emptyStack.Init generousPool 0).2.buffer_size_ = 144 ∧
    (emptyStack.Init generousPool 0).2.buffer_size_ ≠ RoundUp 0 8 + kPadding + 2 * 8 := by
  have h : (emptyStack.Init generousPool 0).2.buffer_size_ = 144 := by
    show InitBufferSize 0 = 144
    rw [InitBufferSize_eq 0 (by norm_num) (by norm_num [INT64_MAX])]
    norm_num [RoundUp]
  refine ⟨h, ?_⟩
  rw [h]
  norm_num [RoundUp, kPadding]

/-- C2 (amended): for `size ≥ 0` (small enough for the sums not to overflow) the
capacity recorded in `buffer_size_` by `Init`, whether or not the allocation
succeeds, is `PaddedAllocationSize size + kPadding + 2 * 8`, that is
`RoundUp size 8 + 2 * 64 + 16`: the padding is counted twice. -/
theorem Init_buffer_size (self : TempVectorStack) (pool : MemoryPool) (size : Int)
    (h0 : 0 ≤ size) (hmax : size ≤ INT64_MAX - 151) :
    (self.Init pool size).2.buffer_size_ = PaddedAllocationSize size + kPadding + 2 * 8 ∧
    (self.Init pool size).2.buffer_size_ = RoundUp size 8 + 2 * 64 + 16 := by
  have hb : (self.Init pool size).2.buffer_size_ = InitBufferSize size := by
    unfold TempVectorStack.Init
    cases AllocateResizableBuffer size pool <;> rfl
  have hp := PaddedAllocationSize_eq size h0 (by omega)
  rw [hb, InitBufferSize_eq size h0 hmax, hp]
  unfold kPadding
  omega

theorem Init_buffer_size_witness :
    (usedStack.Init generousPool 1000).2.buffer_size_
      = PaddedAllocationSize 1000 + kPadding + 2 * 8 ∧
    (usedStack.Init generousPool 1000).2.buffer_size_ = RoundUp 1000 8 + 2 * 64 + 16 :=
  Init_buffer_size usedStack generousPool 1000 (by norm_num) (by norm_num [INT64_MAX])

theorem Init_of_success (self : TempVectorStack) (pool : MemoryPool) (size : Int)
    (h : pool.fails size = none) :
    self.Init pool size =
      (Status.OK,
        { num_vectors_ := 0, top_ := 0, buffer_size_ := InitBufferSize size,
          buffer_ := some (memset { size := size, data := pool.fresh } 0xFF (toUint64 size)) }) := by
  simp only [TempVectorStack.Init, AllocateResizableBuffer, h]

theorem Init_of_failure (self : TempVectorStack) (pool : MemoryPool) (size : Int) (e : Error)
    (h : pool.fails size = some e) :
    self.Init pool size =
      (Status.error e,
        { num_vectors_ := 0, top_ := 0, buffer_size_ := InitBufferSize size,
          buffer_ := self.buffer_ }) := by
  simp only [TempVectorStack.Init, AllocateResizableBuffer, h]

/-- C3 (the code at a failing input): `Init` with `size = 1024` on a pool that
satisfies the request returns OK with a buffer of 1024 bytes, the size it asked
the pool for. That is less than `PaddedAllocationSize 1024 = 1088` and less than
the recorded `buffer_size_ = 1168`, so the offsets 1024 to 1167 are below
`buffer_size_` and outside the buffer. -/
theorem Init_buffer_smaller_than_capacity :
    (emptyStack.Init generousPool 1024).1 = Status.OK ∧
    (emptyStack.Init generousPool 1024).2.buffer_.map Buffer.size = some 1024 ∧
    (1024 : Int) < PaddedAllocationSize 1024 ∧
    (1024 : Int) < (emptyStack.Init generousPool 1024).2.buffer_size_ ∧
    PaddedAllocationSize 1024 = 1088 ∧
    (emptyStack.Init generousPool 1024).2.buffer_size_ = 1168 := by
  have hp : PaddedAllocationSize 1024 = 1088 := by
    rw [PaddedAllocationSize_eq 1024 (by norm_num) (by norm_num [INT64_MAX])]
    norm_num [RoundUp]
  have hb : InitBufferSize 1024 = 1168 := by
    rw [InitBufferSize_eq 1024 (by norm_num) (by norm_num [INT64_MAX])]
    norm_num [RoundUp]
  rw [Init_of_success emptyStack generousPool 1024 rfl]
  refine ⟨rfl, rfl, ?_, ?_, hp, hb⟩
  · rw [hp]
    norm_num
  · show (1024 : Int) < InitBufferSize 1024
    rw [hb]
    norm_num

/-- C4: for `size ≥ 0` (small enough for the sums not to overflow), a successful
`Init` leaves `num_vectors_ = 0` and `top_ = 0`, and the arena invariant
`0 ≤ top_ ≤ buffer_size_`, `0 ≤ num_vectors_` holds, whatever the state of the
object before the call. -/
theorem Init_empty_state (self : TempVectorStack) (pool : MemoryPool) (size : Int)
    (h0 : 0 ≤ size) (hmax : size ≤ INT64_MAX - 151)
    (hok : (self.Init pool size).1 = Status.OK) :
    (self.Init pool size).2.num_vectors_ = 0 ∧ (self.Init pool size).2.top_ = 0 ∧
    (self.Init pool size).2.Invariant := by
  cases hf : pool.fails size with
  | some e =>
    rw [Init_of_failure self pool size e hf] at hok
    cases hok
  | none =>
    obtain ⟨_, h2, _⟩ := RoundUp_eight_bounds size
    have hb := InitBufferSize_eq size h0 hmax
    rw [Init_of_success self pool size hf]
    refine ⟨rfl, rfl, le_refl _, ?_, le_refl _⟩
    show (0 : Int) ≤ InitBufferSize size
    omega

theorem Init_empty_state_witness :
    (usedStack.Init generousPool 1000).2.num_vectors_ = 0 ∧
    (usedStack.Init generousPool 1000).2.top_ = 0 ∧
    (usedStack.Init generousPool 1000).2.Invariant :=
  Init_empty_state usedStack generousPool 1000 (by norm_num) (by norm_num [INT64_MAX]) rfl

/-- C5: `Init` returns a failure status exactly when the pool's allocation
fails; the status is then the pool's failure, and it is OK when the allocation
succeeds. -/
theorem Init_status (self : TempVectorStack) (pool : MemoryPool) (size : Int) :
    ((self.Init pool size).1 ≠ Status.OK ↔
      ∃ e, AllocateResizableBuffer size pool = Except.error e) ∧
    (∀ e, AllocateResizableBuffer size pool = Except.error e →
      (self.Init pool size).1 = Status.error e) ∧
    (∀ b, AllocateResizableBuffer size pool = Except.ok b →
      (self.Init pool size).1 = Status.OK) := by
  unfold TempVectorStack.Init
  cases h : AllocateResizableBuffer size pool with
  | error e =>
    refine ⟨⟨fun _ => ⟨e, rfl⟩, fun _ hs => by cases hs⟩, ?_, ?_⟩
    · intro e2 he
      cases he
      rfl
    · intro b hb
      cases hb
  | ok b =>
    refine ⟨⟨fun hs => absurd rfl hs, fun ⟨e, he⟩ => by cases he⟩, ?_, ?_⟩
    · intro e2 he
      cases he
    · intro b2 _
      rfl

theorem Init_status_witness :
    (usedStack.Init exhaustedPool 1000).1
      = Status.error { code := StatusCode.OutOfMemory, msg := "malloc failed" } ∧
    (usedStack.Init generousPool 1000).1 = Status.OK :=
  ⟨(Init_status usedStack exhaustedPool 1000).2.1 _ rfl,
    (Init_status usedStack generousPool 1000).2.2 _ rfl⟩

/-- C10: when the pool's allocation fails, `Init` returns the pool's failure with
`buffer_` as it was before the call, while `num_vectors_` and `top_` are already
0 and `buffer_size_` already holds the capacity computed for the new size. -/
theorem Init_failure_state (self : TempVectorStack) (pool : MemoryPool) (size : Int)
    (e : Error) (hfail : AllocateResizableBuffer size pool = Except.error e) :
    (self.Init pool size).1 = Status.error e ∧
    (self.Init pool size).2.buffer_ = self.buffer_ ∧
    (self.Init pool size).2.num_vectors_ = 0 ∧
    (self.Init pool size).2.top_ = 0 ∧
    (self.Init pool size).2.buffer_size_ = InitBufferSize size ∧
    (0 ≤ size → size ≤ INT64_MAX - 151 →
      (self.Init pool size).2.buffer_size_ = RoundUp size 8 + 144) := by
  have h : self.Init pool size =
      (Status.error e,
        { num_vectors_ := 0, top_ := 0, buffer_size_ := InitBufferSize size,
          buffer_ := self.buffer_ }) := by
    simp only [TempVectorStack.Init, hfail]
  rw [h]
  exact ⟨rfl, rfl, rfl, rfl, rfl, fun h0 hmax => InitBufferSize_eq size h0 hmax⟩

theorem Init_failure_state_witness :
    (usedStack.Init exhaustedPool 1000).1
      = Status.error { code := StatusCode.OutOfMemory, msg := "malloc failed" } ∧
    (usedStack.Init exhaustedPool 1000).2.buffer_ = usedStack.buffer_ ∧
    (usedStack.Init exhaustedPool 1000).2.num_vectors_ = 0 ∧
    (usedStack.Init exhaustedPool 1000).2.top_ = 0 ∧
    (usedStack.Init exhaustedPool 1000).2.buffer_size_ = InitBufferSize 1000 ∧
    ((0 : Int) ≤ 1000 → (1000 : Int) ≤ INT64_MAX - 151 →
      (usedStack.Init exhaustedPool 1000).2.buffer_size_ = RoundUp 1000 8 + 144) :=
  Init_failure_state usedStack exhaustedPool 1000 _ rfl

/-! ## TempVectorStack: guard words -/

theorem holderNumBytes_eq (n sizeofT : Nat) : holderNumBytes n sizeofT = (n * sizeofT) % 2 ^ 32 := by
  unfold holderNumBytes toUint32
  exact Nat.mod_mod_of_dvd _ (by norm_num)

/-- C6: for an element type of size `sizeofT` and an element count `n`, the
constructor of a holder sends its stack exactly one call, an allocation, and the
destructor exactly one call, a release with the id returned by that allocation
and the same byte count. The byte count is `n * sizeofT` reduced to 32 bits,
which is `n * sizeofT` when that is below `2^32`, in particular when
`n ≤ kMiniBatchLength = 1024` and `sizeofT ≤ 8`. -/
theorem holder_calls {σ : Type} (ops : StackOps σ) (sizeofT n : Nat) (log : List StackCall)
    (stack : σ) :
    (TempVectorHolder.ctor (recording ops) sizeofT (log, stack) n).1.1
      = log ++ [StackCall.alloc (holderNumBytes n sizeofT)] ∧
    (TempVectorHolder.ctor (recording ops) sizeofT (log, stack) n).2.id_
      = (ops.alloc stack (holderNumBytes n sizeofT)).2.2 ∧
    (TempVectorHolder.dtor (recording ops) sizeofT
        (TempVectorHolder.ctor (recording ops) sizeofT (log, stack) n).1
        (TempVectorHolder.ctor (recording ops) sizeofT (log, stack) n).2).1
      = log ++ [StackCall.alloc (holderNumBytes n sizeofT),
          StackCall.release (ops.alloc stack (holderNumBytes n sizeofT)).2.2
            (holderNumBytes n sizeofT)] ∧
    holderNumBytes n sizeofT = (n * sizeofT) % 2 ^ 32 ∧
    (n * sizeofT < 2 ^ 32 → holderNumBytes n sizeofT = n * sizeofT) ∧
    kMiniBatchLength = 1024 ∧
    (n ≤ kMiniBatchLength → sizeofT ≤ 8 → holderNumBytes n sizeofT = n * sizeofT) := by
  have hk : kMiniBatchLength = 1024 := rfl
  refine ⟨rfl, rfl, ?_, holderNumBytes_eq n sizeofT, ?_, hk, ?_⟩
  · simp [TempVectorHolder.dtor, TempVectorHolder.ctor, recording]
  · intro h
    rw [holderNumBytes_eq, Nat.mod_eq_of_lt h]
  · intro h1 h2
    rw [holderNumBytes_eq, Nat.mod_eq_of_lt]
    rw [hk] at h1
    calc n * sizeofT ≤ 1024 * 8 := Nat.mul_le_mul h1 h2
      _ < 2 ^ 32 := by norm_num

theorem holder_calls_witness :
    (TempVectorHolder.dtor (recording constantOps) 8
        (TempVectorHolder.ctor (recording constantOps) 8 ([], ()) 1024).1
        (TempVectorHolder.ctor (recording constantOps) 8 ([], ()) 1024).2).1
      = [StackCall.alloc 8192, StackCall.release 5 8192] ∧
    holderNumBytes 1024 8 = 1024 * 8 ∧
    holderNumBytes (2 ^ 29 + 1) 8 = 8 :=
  ⟨(holder_calls constantOps 8 1024 [] ()).2.2.1,
    (holder_calls constantOps 8 1024 [] ()).2.2.2.2.2.2 (Nat.le_of_eq rfl)
      (by norm_num),
    by norm_num [holderNumBytes, toUint32]⟩

/-! ## bit_util: bits and bytes -/

theorem packHighBits_bit (l : List Nat) :
    ∀ j, (packHighBits l / 2 ^ j) % 2 = (l.getD j 0 % 256) / 128 := by
  induction l with
  | nil =>
    intro j
    simp [packHighBits]
  | cons b bs ih =>
    intro j
    have hh : (b % 256) >>> 7 = (b % 256) / 128 := by
      rw [Nat.shiftRight_eq_div_pow]
    cases j with
    | zero =>
      simp only [packHighBits, hh, pow_zero, Nat.div_one, List.getD_cons_zero]
      omega
    | succ j =>
      have h2 : (packHighBits (b :: bs)) / 2 ^ (j + 1) = packHighBits bs / 2 ^ j := by
        rw [pow_succ, mul_comm, ← Nat.div_div_eq_div_mul]
        congr 1
        simp only [packHighBits, hh]
        omega
      rw [h2, ih j]
      simp only [List.getD_cons_succ]

theorem getD_window (l : List Nat) (k j : Nat) (hj : j < 8) :
    ((l.drop (8 * k)).take 8).getD j 0 = l.getD (8 * k + j) 0 := by
  simp only [List.getD_eq_getElem?_getD, List.getElem?_take, List.getElem?_drop, hj, if_true]

theorem getD_take_lt (l : List Nat) (n i : Nat) (hi : i < n) :
    (l.take n).getD i 0 = l.getD i 0 := by
  simp only [List.getD_eq_getElem?_getD, List.getElem?_take, hi, if_true]

theorem getD_map_range (g : Nat → Nat) (m k : Nat) (hk : k < m) :
    ((List.range m).map g).getD k 0 = g k := by
  simp only [List.getD_eq_getElem?_getD, List.getElem?_map, List.getElem?_range hk,
    Option.map_some', Option.getD_some]

theorem GetBit_lt_two (bits : List Nat) (i : Nat) : GetBit bits i = 0 ∨ GetBit bits i = 1 := by
  unfold GetBit
  omega

theorem GetBit_bytes_to_bits (hardware_flags : Int) (num_bits : Nat) (bytes : List Nat) (i : Nat)
    (hi : i < num_bits) :
    GetBit (bytes_to_bits hardware_flags num_bits bytes) i = (bytes.getD i 0 % 256) / 128 := by
  have hk : i / 8 < (num_bits + 7) / 8 := by omega
  have hj : i % 8 < 8 := Nat.mod_lt _ (by norm_num)
  unfold GetBit bytes_to_bits
  rw [getD_map_range _ _ _ hk, Nat.shiftRight_eq_div_pow, packHighBits_bit,
    getD_window _ _ _ hj, Nat.div_add_mod, getD_take_lt _ _ _ hi]

theorem getD_bits_to_bytes (hardware_flags : Int) (num_bits : Nat) (bits : List Nat) (i : Nat)
    (hi : i < num_bits) :
    (bits_to_bytes hardware_flags num_bits bits).getD i 0
      = if GetBit bits i = 1 then 0xFF else 0x00 := by
  unfold bits_to_bytes
  rw [getD_map_range _ _ _ hi]

/-- C9: `bits_to_bytes` writes `num_bits` bytes, byte `i` being 0xFF when bit `i`
of the bitmap is 1 and 0x00 when it is 0; `bytes_to_bits` sets bit `i` of its
output to the highest bit of input byte `i`; so bit `i` of `bytes_to_bits`
applied to the output of `bits_to_bytes` is bit `i` of the original bitmap, for
every `i < num_bits`. -/
theorem bits_to_bytes_round_trip (hardware_flags : Int) (num_bits : Nat)
    (bits bytes : List Nat) :
    (bits_to_bytes hardware_flags num_bits bits).length = num_bits ∧
    (∀ i, i < num_bits →
      (bits_to_bytes hardware_flags num_bits bits).getD i 0
        = if GetBit bits i = 1 then 0xFF else 0x00) ∧
    (∀ i, i < num_bits →
      GetBit (bytes_to_bits hardware_flags num_bits bytes) i = (bytes.getD i 0 % 256) / 128) ∧
    (∀ i, i < num_bits →
      GetBit (bytes_to_bits hardware_flags num_bits
        (bits_to_bytes hardware_flags num_bits bits)) i = GetBit bits i) := by
  refine ⟨?_, ?_, ?_, ?_⟩
  · simp only [bits_to_bytes, List.length_map, List.length_range]
  · intro i hi
    exact getD_bits_to_bytes hardware_flags num_bits bits i hi
  · intro i hi
    exact GetBit_bytes_to_bits hardware_flags num_bits bytes i hi
  · intro i hi
    rw [GetBit_bytes_to_bits hardware_flags num_bits _ i hi,
      getD_bits_to_bytes hardware_flags num_bits bits i hi]
    rcases GetBit_lt_two bits i with h | h <;> rw [h] <;> norm_num

theorem bits_to_bytes_round_trip_witness :
    bits_to_bytes 0 8 [0xB1] = [0xFF, 0, 0, 0, 0xFF, 0xFF, 0, 0xFF] ∧
    bytes_to_bits 0 8 [0xFF, 0, 0, 0, 0xFF, 0xFF, 0, 0xFF] = [0xB1] ∧
    GetBit (bytes_to_bits 0 8 (bits_to_bytes 0 8 [0xB1])) 5 = GetBit [0xB1] 5 ∧
    GetBit (bytes_to_bits 0 2 [0x80, 0x7F]) 0 = 1 ∧
    GetBit (bytes_to_bits 0 2 [0x80, 0x7F]) 1 = 0 :=
  ⟨by decide, by decide,
    (bits_to_bytes_round_trip 0 8 [0xB1] []).2.2.2 5 (by norm_num),
    ((bits_to_bytes_round_trip 0 2 [] [0x80, 0x7F]).2.2.1 0 (by norm_num)).trans (by decide),
    ((bits_to_bytes_round_trip 0 2 [] [0x80, 0x7F]).2.2.1 1 (by norm_num)).trans (by decide)⟩

/-! ## bit_util: bits to indexes -/

theorem countTrailingZerosAux_spec (width : Nat) :
    ∀ w, w ≠ 0 → w < 2 ^ width →
      countTrailingZerosAux width w < width ∧
      w.testBit (countTrailingZerosAux width w) = true ∧
      ∀ j, j < countTrailingZerosAux width w → w.testBit j = false := by
  induction width with
  | zero =>
    intro w h0 hlt
    simp only [pow_zero] at hlt
    omega
  | succ width ih =>
    intro w h0 hlt
    by_cases hodd : w % 2 = 1
    · have hc : countTrailingZerosAux (width + 1) w = 0 := by
        simp only [countTrailingZerosAux, hodd, if_true]
      rw [hc]
      refine ⟨Nat.succ_pos _, ?_, ?_⟩
      · rw [Nat.testBit_zero]
        exact decide_eq_true hodd
      · intro j hj
        omega
    · have hc : countTrailingZerosAux (width + 1) w
          = 1 + countTrailingZerosAux width (w / 2) := by
        simp only [countTrailingZerosAux, hodd, if_false]
      have hhalf0 : w / 2 ≠ 0 := by omega
      have hhalflt : w / 2 < 2 ^ width := by
        rw [pow_succ] at hlt
        omega
      obtain ⟨h1, h2, h3⟩ := ih (w / 2) hhalf0 hhalflt
      rw [hc]
      refine ⟨by omega, ?_, ?_⟩
      · rw [Nat.add_comm, Nat.testBit_succ]
        exact h2
      · intro j hj
        cases j with
        | zero =>
          rw [Nat.testBit_zero]
          exact decide_eq_false hodd
        | succ j =>
          rw [Nat.testBit_succ]
          exact h3 j (by omega)

theorem clear_lowest_testBit (c : Nat) :
    ∀ w, w.testBit c = true → (∀ j, j < c → w.testBit j = false) →
      ∀ i, (w &&& (w - 1)).testBit i = (w.testBit i && decide (i ≠ c)) := by
  induction c with
  | zero =>
    intro w hc _ i
    have hodd : w % 2 = 1 := by
      rw [Nat.testBit_zero] at hc
      exact of_decide_eq_true hc
    rw [Nat.testBit_and]
    cases i with
    | zero =>
      have h1 : (w - 1).testBit 0 = false := by
        rw [Nat.testBit_zero]
        exact decide_eq_false (by omega)
      rw [h1]
      simp
    | succ i =>
      have h1 : (w - 1).testBit (i + 1) = w.testBit (i + 1) := by
        rw [Nat.testBit_succ, Nat.testBit_succ]
        congr 1
        omega
      rw [h1]
      simp
  | succ c ih =>
    intro w hc hlow i
    have heven : w % 2 = 0 := by
      have h0 := hlow 0 (Nat.succ_pos _)
      rw [Nat.testBit_zero] at h0
      have := of_decide_eq_false h0
      omega
    have hpos : w ≠ 0 := by
      intro h
      rw [h] at hc
      simp at hc
    have hc2 : (w / 2).testBit c = true := by
      rw [← Nat.testBit_succ]
      exact hc
    have hlow2 : ∀ j, j < c → (w / 2).testBit j = false := by
      intro j hj
      rw [← Nat.testBit_succ]
      exact hlow (j + 1) (by omega)
    rw [Nat.testBit_and]
    cases i with
    | zero =>
      have h0 : w.testBit 0 = false := hlow 0 (Nat.succ_pos _)
      rw [h0]
      simp
    | succ i =>
      have h1 : (w - 1).testBit (i + 1) = (w / 2 - 1).testBit i := by
        rw [Nat.testBit_succ]
        congr 1
        omega
      have h2 := ih (w / 2) hc2 hlow2 i
      rw [Nat.testBit_and] at h2
      rw [h1, Nat.testBit_succ, h2]
      simp
theorem filter_range'_lowest (P Q : Nat → Bool) (p c : Nat) (hpc : p ≤ c) (hc64 : c < 64)
    (hc : P c = true) (hlow : ∀ j, j < c → P j = false)
    (hQ : ∀ i, c < i → Q i = P i) :
    (List.range' p (64 - p)).filter P = c :: (List.range' (c + 1) (64 - (c + 1))).filter Q := by
  have hsplit : List.range' p (64 - p)
      = List.range' p (c - p) ++ (c :: List.range' (c + 1) (64 - (c + 1))) := by
    have h1 := List.range'_append_1 p (c - p) (64 - c)
    have h2 : p + (c - p) = c := by omega
    have h3 : 64 - c + (c - p) = 64 - p := by omega
    have h4 : 64 - c = (64 - (c + 1)) + 1 := by omega
    rw [h2, h3] at h1
    rw [← h1, h4, List.range'_succ]
  have hfirst : (List.range' p (c - p)).filter P = [] := by
    rw [List.filter_eq_nil_iff]
    intro a ha
    rw [List.mem_range'_1] at ha
    rw [hlow a (by omega)]
    simp
  have hrest : (List.range' (c + 1) (64 - (c + 1))).filter P
      = (List.range' (c + 1) (64 - (c + 1))).filter Q := by
    apply List.filter_congr
    intro x hx
    rw [List.mem_range'_1] at hx
    exact (hQ x (by omega)).symm
  rw [hsplit, List.filter_append, hfirst, List.nil_append, List.filter_cons_of_pos hc, hrest]

theorem helper_loop_spec (steps : Nat) :
    ∀ (w p base : Nat) (out : Nat × List Nat), w < 2 ^ 64 →
      (∀ j, j < p → w.testBit j = false) → 64 ≤ p + steps →
      bits_to_indexes_helper_loop steps w base out =
        (out.1 + ((List.range' p (64 - p)).filter (fun i => w.testBit i)).length,
          out.2 ++ ((List.range' p (64 - p)).filter (fun i => w.testBit i)).map
            (fun i => toUint16 (base + toUint16 i))) := by
  induction steps with
  | zero =>
    intro w p base out _ _ hp
    have h0 : 64 - p = 0 := by omega
    rw [h0]
    simp [bits_to_indexes_helper_loop]
  | succ steps ih =>
    intro w p base out hw hlow hp
    by_cases hw0 : w = 0
    · have hnil : (List.range' p (64 - p)).filter (fun i => w.testBit i) = [] := by
        rw [List.filter_eq_nil_iff]
        intro a _
        rw [hw0, Nat.zero_testBit]
        simp
      rw [hnil]
      simp [bits_to_indexes_helper_loop, hw0]
    · obtain ⟨hc64, hc, hclow⟩ := countTrailingZerosAux_spec 64 w hw0 hw
      have hpc : p ≤ countTrailingZerosAux 64 w := by
        by_contra hlt
        have := hlow _ (Nat.lt_of_not_le hlt)
        rw [hc] at this
        exact Bool.noConfusion this
      have hclear := clear_lowest_testBit _ w hc hclow
      have hw' : w &&& (w - 1) < 2 ^ 64 := lt_of_le_of_lt Nat.and_le_left hw
      have hlow' : ∀ j, j < countTrailingZerosAux 64 w + 1 →
          (w &&& (w - 1)).testBit j = false := by
        intro j hj
        rw [hclear j]
        by_cases hjc : j = countTrailingZerosAux 64 w
        · simp [hjc]
        · rw [hclow j (by omega)]
          simp
      have hstep := ih (w &&& (w - 1)) (countTrailingZerosAux 64 w + 1) base
        (out.1 + 1, out.2 ++ [toUint16 (base + toUint16 (CountTrailingZeros w))])
        hw' hlow' (by omega)
      have hfilter := filter_range'_lowest (fun i => w.testBit i)
        (fun i => (w &&& (w - 1)).testBit i) p (countTrailingZerosAux 64 w) hpc hc64 hc hclow
        (by
          intro i hi
          show (w &&& (w - 1)).testBit i = w.testBit i
          rw [hclear i]
          have : i ≠ countTrailingZerosAux 64 w := by omega
          simp [this])
      have hloop : bits_to_indexes_helper_loop (steps + 1) w base out
          = bits_to_indexes_helper_loop steps (w &&& (w - 1)) base
              (out.1 + 1, out.2 ++ [toUint16 (base + toUint16 (CountTrailingZeros w))]) := by
        simp only [bits_to_indexes_helper_loop, hw0, if_false]
      rw [hloop, hstep, hfilter]
      simp only [List.length_cons, List.map_cons, CountTrailingZeros, List.append_assoc,
        List.singleton_append]
      congr 1
      omega
theorem loadLE_bit (l : List Nat) : ∀ j, (loadLE l / 2 ^ j) % 2 = GetBit l j := by
  induction l with
  | nil =>
    intro j
    simp [loadLE, GetBit]
  | cons b bs ih =>
    intro j
    by_cases hj : j < 8
    · have h1 : j / 8 = 0 := by omega
      have h2 : j % 8 = j := by omega
      simp only [GetBit, loadLE, h1, h2, List.getD_cons_zero, Nat.shiftRight_eq_div_pow]
      interval_cases j <;> norm_num <;> omega
    · obtain ⟨k, rfl⟩ : ∃ k, j = k + 8 := ⟨j - 8, by omega⟩
      have h1 : (k + 8) / 8 = k / 8 + 1 := by omega
      have h2 : (k + 8) % 8 = k % 8 := by omega
      have h3 : loadLE (b :: bs) / 2 ^ (k + 8) = loadLE bs / 2 ^ k := by
        rw [pow_add, mul_comm, ← Nat.div_div_eq_div_mul]
        congr 1
        simp only [loadLE]
        norm_num
        omega
      rw [h3, ih k]
      simp only [GetBit, h1, h2, List.getD_cons_succ]

theorem loadLE_lt (l : List Nat) : loadLE l < 256 ^ l.length := by
  induction l with
  | nil => simp [loadLE]
  | cons b bs ih =>
    simp only [loadLE, List.length_cons, pow_succ]
    have hb : b % 256 < 256 := Nat.mod_lt _ (by norm_num)
    nlinarith

theorem loadLE_lt_word (l : List Nat) (hl : l.length ≤ 8) : loadLE l < 2 ^ 64 := by
  have h1 := loadLE_lt l
  have h2 : 256 ^ l.length ≤ 256 ^ 8 := Nat.pow_le_pow_right (by norm_num) hl
  have h3 : (256 : Nat) ^ 8 = 2 ^ 64 := by norm_num
  omega

theorem searchWord_testBit (b : Nat) (hb : b = 0 ∨ b = 1) (l : List Nat) (hl : l.length ≤ 8)
    (j : Nat) (hj : j < 64) :
    (if b = 0 then not64 (loadLE l) else loadLE l).testBit j = decide (GetBit l j = b) := by
  have hw := loadLE_lt_word l hl
  have hbit : (loadLE l).testBit j = decide (GetBit l j = 1) := by
    rw [Nat.testBit_to_div_mod, loadLE_bit]
  rcases hb with h | h
  · have hnot : not64 (loadLE l) = 2 ^ 64 - (loadLE l + 1) := by
      unfold not64
      omega
    rw [h, if_pos rfl, hnot, Nat.testBit_two_pow_sub_succ hw, hbit]
    rcases GetBit_lt_two l j with g | g <;> simp [g, hj]
  · rw [h, if_neg (by norm_num), hbit]

theorem getD_drop_take (l : List Nat) (d m k : Nat) (hk : k < m) :
    ((l.drop d).take m).getD k 0 = l.getD (d + k) 0 := by
  simp only [List.getD_eq_getElem?_getD, List.getElem?_take, List.getElem?_drop, hk, if_true]

theorem GetBit_drop_take (l : List Nat) (d m j : Nat) (hj : j / 8 < m) :
    GetBit ((l.drop d).take m) j = GetBit l (8 * d + j) := by
  have h1 : (8 * d + j) / 8 = d + j / 8 := by omega
  have h2 : (8 * d + j) % 8 = j % 8 := by omega
  simp only [GetBit, h1, h2, getD_drop_take l d m _ hj]
theorem toUint16_index (B j : Nat) (hB : B + 64 ≤ 65536) (hj : j < 64) :
    toUint16 (toUint16 B + toUint16 j) = B + j := by
  unfold toUint16
  norm_num
  omega

theorem helper_word_spec (word B m : Nat) (P : Nat → Bool) (out : Nat × List Nat)
    (hw : word < 2 ^ 64) (hm : m ≤ 64) (hB : B + 64 ≤ 65536)
    (hbits : ∀ j, j < 64 → word.testBit j = (decide (j < m) && P (B + j))) :
    bits_to_indexes_helper word (toUint16 B) out =
      (out.1 + ((List.range' B m).filter P).length, out.2 ++ (List.range' B m).filter P) := by
  have hloop := helper_loop_spec 64 word 0 (toUint16 B) out hw
    (fun j hj => absurd hj (Nat.not_lt_zero j)) (by norm_num)
  have hsplit : List.range' 0 (64 - 0) = List.range' 0 m ++ List.range' m (64 - m) := by
    have h1 := List.range'_append_1 0 m (64 - m)
    have h2 : 64 - m + m = 64 - 0 := by omega
    rw [Nat.zero_add, h2] at h1
    exact h1.symm
  have hfirst : (List.range' 0 m).filter (fun i => word.testBit i)
      = (List.range' 0 m).filter (P ∘ fun x => B + x) := by
    apply List.filter_congr
    intro x hx
    rw [List.mem_range'_1] at hx
    show word.testBit x = P (B + x)
    have hxm : x < m := by omega
    rw [hbits x (by omega)]
    simp [hxm]
  have hsecond : (List.range' m (64 - m)).filter (fun i => word.testBit i) = [] := by
    rw [List.filter_eq_nil_iff]
    intro a ha
    rw [List.mem_range'_1] at ha
    rw [hbits a (by omega)]
    have : ¬ a < m := by omega
    simp [this]
  have hfilter : (List.range' 0 (64 - 0)).filter (fun i => word.testBit i)
      = (List.range m).filter (P ∘ fun x => B + x) := by
    rw [hsplit, List.filter_append, hfirst, hsecond, List.append_nil, ← List.range_eq_range']
  have hmap : ((List.range m).filter (P ∘ fun x => B + x)).map
      (fun i => toUint16 (toUint16 B + toUint16 i)) = (List.range' B m).filter P := by
    rw [List.range'_eq_map_range, List.filter_map]
    apply List.map_congr_left
    intro a ha
    have ha2 := (List.mem_filter.mp ha).1
    rw [List.mem_range] at ha2
    exact toUint16_index B a hB (by omega)
  unfold bits_to_indexes_helper
  rw [hloop, hfilter, hmap]
  congr 1
  rw [← hmap, List.length_map]

theorem searchWord_lt (b : Nat) (l : List Nat) (hl : l.length ≤ 8) :
    (if b = 0 then not64 (loadLE l) else loadLE l) < 2 ^ 64 := by
  have hw := loadLE_lt_word l hl
  split
  · unfold not64
    omega
  · exact hw

theorem scalar_word_step (b : Nat) (hb : b = 0 ∨ b = 1) (bits : List Nat) (W : Nat)
    (hW : 64 * W + 64 ≤ 65536) (out : Nat × List Nat) :
    bits_to_indexes_helper
        (if b = 0 then not64 (SafeLoadWord bits W) else SafeLoadWord bits W)
        (toUint16 (W * 64 + 0)) out =
      (out.1 + ((List.range' (64 * W) 64).filter (fun i => decide (GetBit bits i = b))).length,
        out.2 ++ (List.range' (64 * W) 64).filter (fun i => decide (GetBit bits i = b))) := by
  have hlen : ((bits.drop (8 * W)).take 8).length ≤ 8 := by
    rw [List.length_take]
    exact Nat.min_le_left _ _
  have hB : W * 64 + 0 = 64 * W := by omega
  rw [hB]
  apply helper_word_spec _ _ 64 _ out (searchWord_lt b _ hlen) (le_refl _) hW
  intro j hj
  rw [searchWord_testBit b hb _ hlen j hj, GetBit_drop_take bits (8 * W) 8 j (by omega)]
  have h1 : 8 * (8 * W) + j = 64 * W + j := by omega
  rw [h1]
  simp [hj]
theorem scalar_tail_step (b : Nat) (hb : b = 0 ∨ b = 1) (bits : List Nat) (num_bits : Nat)
    (hn : num_bits ≤ 1024) (out : Nat × List Nat) :
    bits_to_indexes_helper
        ((if b = 0 then
            not64 (SafeLoadUpTo8Bytes (bits.drop ((num_bits - num_bits % 64) / 8))
              ((num_bits % 64 + 7) / 8))
          else
            SafeLoadUpTo8Bytes (bits.drop ((num_bits - num_bits % 64) / 8))
              ((num_bits % 64 + 7) / 8))
          &&& ((2 ^ 64 - 1) >>> (64 - num_bits % 64)))
        (toUint16 (num_bits - num_bits % 64 + 0)) out =
      (out.1 + ((List.range' (num_bits - num_bits % 64) (num_bits % 64)).filter
          (fun i => decide (GetBit bits i = b))).length,
        out.2 ++ (List.range' (num_bits - num_bits % 64) (num_bits % 64)).filter
          (fun i => decide (GetBit bits i = b))) := by
  have htail : num_bits % 64 < 64 := Nat.mod_lt _ (by norm_num)
  have hlen : ((bits.drop ((num_bits - num_bits % 64) / 8)).take
      ((num_bits % 64 + 7) / 8)).length ≤ 8 := by
    rw [List.length_take]
    have : (num_bits % 64 + 7) / 8 ≤ 8 := by omega
    exact le_trans (Nat.min_le_left _ _) this
  have hB : num_bits - num_bits % 64 + 0 = num_bits - num_bits % 64 := by omega
  rw [hB]
  apply helper_word_spec _ _ (num_bits % 64) _ out
    (lt_of_le_of_lt Nat.and_le_left (searchWord_lt b _ hlen)) (le_of_lt htail) (by omega)
  intro j hj
  have hmask : ((2 ^ 64 - 1) >>> (64 - num_bits % 64)).testBit j
      = decide (j < num_bits % 64) := by
    rw [Nat.testBit_shiftRight, Nat.testBit_two_pow_sub_one]
    by_cases h : j < num_bits % 64
    · have h2 : 64 - num_bits % 64 + j < 64 := by omega
      simp [h, h2]
    · have h2 : ¬ 64 - num_bits % 64 + j < 64 := by omega
      simp [h, h2]
  rw [Nat.testBit_and, hmask, searchWord_testBit b hb _ hlen j hj]
  by_cases h : j < num_bits % 64
  · rw [GetBit_drop_take bits _ _ j (by omega)]
    have h1 : 8 * ((num_bits - num_bits % 64) / 8) + j = num_bits - num_bits % 64 + j := by
      omega
    rw [h1]
    simp [h]
  · simp [h]

theorem scalar_full_words (b : Nat) (hb : b = 0 ∨ b = 1) (bits : List Nat) (W : Nat)
    (hW : 64 * W ≤ 65536) :
    (List.range W).foldl
        (fun out i =>
          bits_to_indexes_helper
            (if b = 0 then not64 (SafeLoadWord bits i) else SafeLoadWord bits i)
            (toUint16 (i * 64 + 0)) out)
        (0, []) =
      (((List.range (64 * W)).filter (fun i => decide (GetBit bits i = b))).length,
        (List.range (64 * W)).filter (fun i => decide (GetBit bits i = b))) := by
  induction W with
  | zero => rfl
  | succ W ih =>
    have hr : List.range (64 * (W + 1)) = List.range (64 * W) ++ List.range' (64 * W) 64 := by
      have h1 := List.range'_append_1 0 (64 * W) 64
      rw [Nat.zero_add] at h1
      rw [List.range_eq_range', List.range_eq_range', h1]
      congr 1
      omega
    rw [List.range_succ, List.foldl_append, ih (by omega)]
    simp only [List.foldl_cons, List.foldl_nil]
    rw [scalar_word_step b hb bits W (by omega), hr, List.filter_append, List.length_append]

theorem bits_to_indexes_scalar_spec (b : Nat) (hb : b = 0 ∨ b = 1) (num_bits : Nat)
    (hn : num_bits ≤ 1024) (bits : List Nat) :
    bits_to_indexes_scalar b num_bits bits 0 =
      (((List.range num_bits).filter (fun i => decide (GetBit bits i = b))).length,
        (List.range num_bits).filter (fun i => decide (GetBit bits i = b))) := by
  have hfull := scalar_full_words b hb bits (num_bits / 64) (by omega)
  have hdiv : 64 * (num_bits / 64) = num_bits - num_bits % 64 := by omega
  rw [hdiv] at hfull
  by_cases htail : num_bits % 64 = 0
  · have h0 : num_bits - num_bits % 64 = num_bits := by omega
    rw [h0] at hfull
    simp only [bits_to_indexes_scalar, htail, ne_eq, not_true_eq_false, if_false]
    exact hfull
  · have hr : List.range num_bits = List.range (num_bits - num_bits % 64)
        ++ List.range' (num_bits - num_bits % 64) (num_bits % 64) := by
      have h1 := List.range'_append_1 0 (num_bits - num_bits % 64) (num_bits % 64)
      rw [Nat.zero_add] at h1
      rw [List.range_eq_range', List.range_eq_range', h1]
      congr 1
      omega
    simp only [bits_to_indexes_scalar, htail, ne_eq, not_false_eq_true, if_true]
    rw [hfull, scalar_tail_step b hb bits num_bits hn, hr, List.filter_append,
      List.length_append]

theorem bits_to_indexes_accelerated_spec (b : Nat) (bits : List Nat) (num_bits : Nat)
    (hn : num_bits ≤ 65536) :
    bits_to_indexes_accelerated b num_bits bits 0 =
      (((List.range num_bits).filter (fun i => decide (GetBit bits i = b))).length,
        (List.range num_bits).filter (fun i => decide (GetBit bits i = b))) := by
  unfold bits_to_indexes_accelerated
  induction num_bits with
  | zero => rfl
  | succ n ih =>
    have hidx : toUint16 n = n := by
      unfold toUint16
      norm_num
      omega
    rw [List.range_succ, List.foldl_append, ih (by omega), List.filter_append,
      List.length_append]
    by_cases h : GetBit bits n = b
    · simp [h, hidx]
    · simp [h]
theorem bits_to_indexes_eq (accelerated : Int → Bool) (bit_to_search : Nat)
    (hardware_flags : Int) (num_bits : Nat) (bits : List Nat)
    (hbit : bit_to_search = 0 ∨ bit_to_search = 1) (hn : num_bits ≤ 1024) :
    bits_to_indexes accelerated bit_to_search hardware_flags num_bits bits =
      (((List.range num_bits).filter (fun i => decide (GetBit bits i = bit_to_search))).length,
        (List.range num_bits).filter (fun i => decide (GetBit bits i = bit_to_search))) := by
  have hsel : (if bit_to_search = 0 then 0 else 1) = bit_to_search := by
    rcases hbit with h | h <;> simp [h]
  unfold bits_to_indexes
  simp only [hsel]
  cases accelerated hardware_flags with
  | true =>
    simp only [if_true]
    exact bits_to_indexes_accelerated_spec bit_to_search bits num_bits (by omega)
  | false =>
    simp only [Bool.false_eq_true, if_false]
    exact bits_to_indexes_scalar_spec bit_to_search hbit num_bits hn bits

/-- C8: for a target bit 0 or 1, at most `kMiniBatchLength = 1024` bits and a
bitmap holding at least that many bits, `bits_to_indexes` writes exactly the
positions `i < num_bits` whose bit equals the target, in strictly ascending
order; the count it returns is the number of such positions; and the result does
not depend on `hardware_flags` nor on which flags select the accelerated path. -/
theorem bits_to_indexes_spec (accelerated : Int → Bool) (bit_to_search : Nat)
    (hardware_flags : Int) (num_bits : Nat) (bits : List Nat)
    (hbit : bit_to_search = 0 ∨ bit_to_search = 1) (hn : num_bits ≤ kMiniBatchLength)
    (hlen : num_bits ≤ 8 * bits.length) :
    (bits_to_indexes accelerated bit_to_search hardware_flags num_bits bits).2
      = (List.range num_bits).filter (fun i => decide (GetBit bits i = bit_to_search)) ∧
    (bits_to_indexes accelerated bit_to_search hardware_flags num_bits bits).1
      = (List.range num_bits).countP (fun i => decide (GetBit bits i = bit_to_search)) ∧
    (bits_to_indexes accelerated bit_to_search hardware_flags num_bits bits).1
      = (bits_to_indexes accelerated bit_to_search hardware_flags num_bits bits).2.length ∧
    List.Pairwise (fun x y => x < y)
      (bits_to_indexes accelerated bit_to_search hardware_flags num_bits bits).2 ∧
    (∀ i, i ∈ (bits_to_indexes accelerated bit_to_search hardware_flags num_bits bits).2
      ↔ i < num_bits ∧ GetBit bits i = bit_to_search) ∧
    (∀ (accelerated2 : Int → Bool) (hardware_flags2 : Int),
      bits_to_indexes accelerated2 bit_to_search hardware_flags2 num_bits bits
        = bits_to_indexes accelerated bit_to_search hardware_flags num_bits bits) := by
  have hk : kMiniBatchLength = 1024 := rfl
  rw [hk] at hn
  have h := bits_to_indexes_eq accelerated bit_to_search hardware_flags num_bits bits hbit hn
  rw [h]
  refine ⟨rfl, ?_, rfl, ?_, ?_, ?_⟩
  · exact (List.countP_eq_length_filter _ _).symm
  · exact List.Pairwise.filter _ (List.pairwise_lt_range num_bits)
  · intro i
    show i ∈ List.filter _ _ ↔ _
    rw [List.mem_filter, List.mem_range, decide_eq_true_eq]
  · intro accelerated2 hardware_flags2
    exact bits_to_indexes_eq accelerated2 bit_to_search hardware_flags2 num_bits bits hbit hn

theorem bits_to_indexes_spec_witness :
    (bits_to_indexes (fun _ => false) 1 0 8 [0xB1]).2 = [0, 4, 5, 7] ∧
    (bits_to_indexes (fun _ => false) 1 0 8 [0xB1]).1 = 4 ∧
    bits_to_indexes (fun _ => true) 1 0 8 [0xB1]
      = bits_to_indexes (fun _ => false) 1 0 8 [0xB1] :=
  ⟨(bits_to_indexes_spec (fun _ => false) 1 0 8 [0xB1] (Or.inr rfl) (by decide)
      (by decide)).1.trans (by decide),
    (bits_to_indexes_spec (fun _ => false) 1 0 8 [0xB1] (Or.inr rfl) (by decide)
      (by decide)).2.1.trans (by decide),
    (bits_to_indexes_spec (fun _ => false) 1 0 8 [0xB1] (Or.inr rfl) (by decide)
      (by decide)).2.2.2.2.2 (fun _ => true) 0⟩

end util
end arrow
